import Mathlib

/-
Verification of the isomorph-colouring program (`src/main.rs`).

The embedding translates the source directly:
  * `IsomorphSignature::from_isomorphic` — `sigLoop` / `IsomorphSignature.from_isomorphic`,
    with the `HashMap` rendered as an association list (keys are inserted at most
    once, and the map is only read back pointwise, so hashing order is immaterial)
    and the `u8` counter rendered as a natural reduced modulo 256 at the increment
    (release-profile wraparound semantics of `idx += 1`; the debug-profile
    overflow-checked semantics is modelled separately by `sigLoopChecked`).
  * `colour` — `colour`, with the `unreachable!()` arm modelled as `Option.none`.
  * `ColourKey::{next, reify}`, `ColouredObject::ansify`, `DiscordColour`,
    `DiscordColourIterator` (collected to `discordTable`), and the rendering in
    `main` — `ColourKey.next`, `ColourKey.reify`, `ColouredObject.ansify`,
    `discordTable`, `renderAll` / `mainOutput`.  An out-of-bounds / remainder-by-zero
    panic is modelled as `Option.none`.
-/

namespace Isomorphs

variable {T : Type} [DecidableEq T]

/-- Association-list lookup, modelling `HashMap::get` (every use in the program
inserts a key at most once and never iterates the map, so iteration order is
irrelevant and an association list is a faithful model). -/
def alookup {V : Type} (c : T) : List (T × V) → Option V
  | [] => none
  | p :: m => if c = p.1 then some p.2 else alookup c m

/-- Index of the first occurrence of `a` in a list (the length when absent). -/
def idxOf (a : T) : List T → Nat
  | [] => 0
  | b :: l => if a = b then 0 else idxOf a l + 1

/-- Number of occurrences of `a` in a list. -/
def cnt (a : T) : List T → Nat
  | [] => 0
  | b :: l => (if b = a then 1 else 0) + cnt a l

@[simp] theorem alookup_nil {V : Type} (c : T) : alookup c ([] : List (T × V)) = none := rfl

@[simp] theorem alookup_cons {V : Type} (c : T) (p : T × V) (m : List (T × V)) :
    alookup c (p :: m) = if c = p.1 then some p.2 else alookup c m := rfl

@[simp] theorem idxOf_nil (a : T) : idxOf a [] = 0 := rfl

@[simp] theorem idxOf_cons (a b : T) (l : List T) :
    idxOf a (b :: l) = if a = b then 0 else idxOf a l + 1 := rfl

@[simp] theorem cnt_nil (a : T) : cnt a [] = 0 := rfl

@[simp] theorem cnt_cons (a b : T) (l : List T) :
    cnt a (b :: l) = (if b = a then 1 else 0) + cnt a l := rfl

theorem idxOf_lt_length {a : T} {l : List T} (h : a ∈ l) : idxOf a l < l.length := by
  induction l with
  | nil => cases h
  | cons b l ih =>
    by_cases hab : a = b
    · simp [hab]
    · have hm : a ∈ l := by
        cases h with
        | head => exact absurd rfl hab
        | tail _ h => exact h
      simp only [idxOf_cons, if_neg hab, List.length_cons]
      exact Nat.succ_lt_succ (ih hm)

theorem idxOf_eq_length {a : T} {l : List T} (h : a ∉ l) : idxOf a l = l.length := by
  induction l with
  | nil => rfl
  | cons b l ih =>
    have hab : a ≠ b := fun he => h (he ▸ List.mem_cons_self b l)
    have hm : a ∉ l := fun hm => h (List.mem_cons_of_mem b hm)
    simp [idxOf_cons, if_neg hab, ih hm]

theorem get_idxOf {a : T} {l : List T} (h : a ∈ l) (hlt : idxOf a l < l.length) :
    l.get ⟨idxOf a l, hlt⟩ = a := by
  induction l with
  | nil => cases h
  | cons b l ih =>
    by_cases hab : a = b
    · simp [idxOf_cons, hab]
    · have hm : a ∈ l := by
        cases h with
        | head => exact absurd rfl hab
        | tail _ h => exact h
      have hlt' : idxOf a l < l.length := idxOf_lt_length hm
      simpa [idxOf_cons, if_neg hab] using ih hm hlt'

theorem idxOf_inj {a b : T} {l : List T} (ha : a ∈ l) (hb : b ∈ l)
    (h : idxOf a l = idxOf b l) : a = b := by
  have hlta : idxOf a l < l.length := idxOf_lt_length ha
  have hltb : idxOf b l < l.length := idxOf_lt_length hb
  have := get_idxOf ha hlta
  rw [show (⟨idxOf a l, hlta⟩ : Fin l.length) = ⟨idxOf b l, hltb⟩ from Fin.ext h] at this
  rw [get_idxOf hb hltb] at this
  exact this.symm

theorem idxOf_append_left {a : T} {s : List T} (t : List T) (h : a ∈ s) :
    idxOf a (s ++ t) = idxOf a s := by
  induction s with
  | nil => cases h
  | cons b s ih =>
    by_cases hab : a = b
    · simp [idxOf_cons, hab]
    · have hm : a ∈ s := by
        cases h with
        | head => exact absurd rfl hab
        | tail _ h => exact h
      simp [idxOf_cons, if_neg hab, ih hm]

theorem idxOf_append_right {a : T} {s : List T} (t : List T) (h : a ∉ s) :
    idxOf a (s ++ t) = s.length + idxOf a t := by
  induction s with
  | nil => simp
  | cons b s ih =>
    have hab : a ≠ b := fun he => h (he ▸ List.mem_cons_self b s)
    have hm : a ∉ s := fun hm => h (List.mem_cons_of_mem b hm)
    simp [idxOf_cons, if_neg hab, ih hm, List.length_cons]
    omega

theorem cnt_pos_iff_mem {a : T} {l : List T} : 0 < cnt a l ↔ a ∈ l := by
  induction l with
  | nil => simp
  | cons b l ih =>
    by_cases hba : b = a
    · subst hba; simp
    · have : a ≠ b := fun he => hba he.symm
      simp [cnt_cons, if_neg hba, ih, this]

/-- `IsomorphSignature` from the source: the `good` flag and the pattern vector
(`Vec<u8>`, modelled as naturals; the counter producing them is reduced modulo
256 where the source increments the `u8`). -/
structure IsomorphSignature where
  good : Bool
  signature : List Nat
deriving DecidableEq, Repr

/-- The scan loop inside `IsomorphSignature::from_isomorphic`: `m` is `char_map`,
`idx` the `u8` counter; `(idx + 1) % 256` is the release-profile wraparound of
`idx += 1`. -/
def sigLoop : List T → List (T × Nat) → Nat → List Nat
  | [], _, _ => []
  | c :: cs, m, idx =>
    match alookup c m with
    | some i => i :: sigLoop cs m idx
    | none => idx :: sigLoop cs ((c, idx) :: m) ((idx + 1) % 256)

/-- `IsomorphSignature::from_isomorphic`: compute the pattern vector, then set
`good` iff the number of distinct values (`HashSet` cardinality, i.e. the length
of `dedup`) differs from the length. -/
def IsomorphSignature.from_isomorphic (word : List T) : IsomorphSignature :=
  let signature := sigLoop word [] 0
  { good := signature.dedup.length != signature.length, signature := signature }

/-- The same scan loop under the debug-profile overflow-checked semantics of
`idx += 1`: the increment past 255 panics, modelled by `none`.  (The increment
runs unconditionally after each insertion, so the arrival of a 256th distinct
character already aborts the computation.) -/
def sigLoopChecked : List T → List (T × Nat) → Nat → Option (List Nat)
  | [], _, _ => some []
  | c :: cs, m, idx =>
    match alookup c m with
    | some i => (sigLoopChecked cs m idx).map (i :: ·)
    | none =>
      if idx = 255 then none
      else (sigLoopChecked cs ((c, idx) :: m) (idx + 1)).map (idx :: ·)

/-- `IsomorphSignature::from_isomorphic` under overflow-checked arithmetic. -/
def IsomorphSignature.from_isomorphicChecked (word : List T) : Option IsomorphSignature :=
  (sigLoopChecked word [] 0).map fun s =>
    { good := s.dedup.length != s.length, signature := s }

/-- Modelled from the spec's words for comparison with the source: the
left-to-right scan assigning increasing integers starting at 0 on first
occurrence and reusing the assigned integer on repeats, with no wraparound.
`seen` lists the characters already assigned, in assignment order. -/
def scanSig : List T → List T → List Nat
  | _, [] => []
  | seen, c :: cs =>
    if c ∈ seen then idxOf c seen :: scanSig seen cs
    else seen.length :: scanSig (seen ++ [c]) cs

/-- The distinct characters of a word in order of first occurrence, appended
to an already-seen prefix. -/
def accSeen : List T → List T → List T
  | seen, [] => seen
  | seen, c :: cs => accSeen (if c ∈ seen then seen else seen ++ [c]) cs

@[simp] theorem accSeen_nil (seen : List T) : accSeen seen [] = seen := rfl

theorem accSeen_cons (seen : List T) (c : T) (cs : List T) :
    accSeen seen (c :: cs) = accSeen (if c ∈ seen then seen else seen ++ [c]) cs := rfl

theorem accSeen_suffix (w : List T) : ∀ seen : List T, ∃ t, accSeen seen w = seen ++ t := by
  induction w with
  | nil => intro seen; exact ⟨[], by simp⟩
  | cons c cs ih =>
    intro seen
    by_cases hc : c ∈ seen
    · rcases ih seen with ⟨t, ht⟩
      exact ⟨t, by simp [accSeen_cons, hc, ht]⟩
    · rcases ih (seen ++ [c]) with ⟨t, ht⟩
      exact ⟨[c] ++ t, by simp [accSeen_cons, hc, ht]⟩

theorem mem_accSeen {w : List T} {a : T} :
    ∀ {seen : List T}, a ∈ accSeen seen w ↔ a ∈ seen ∨ a ∈ w := by
  induction w with
  | nil => intro seen; simp
  | cons c cs ih =>
    intro seen
    by_cases hc : c ∈ seen
    · rw [accSeen_cons, if_pos hc, ih]
      constructor
      · rintro (h | h)
        · exact Or.inl h
        · exact Or.inr (List.mem_cons_of_mem c h)
      · rintro (h | h)
        · exact Or.inl h
        · cases List.mem_cons.mp h with
          | inl he => exact Or.inl (he ▸ hc)
          | inr h => exact Or.inr h
    · rw [accSeen_cons, if_neg hc, ih]
      constructor
      · rintro (h | h)
        · cases List.mem_append.mp h with
          | inl h => exact Or.inl h
          | inr h =>
            have : a = c := by simpa using h
            exact Or.inr (this ▸ List.mem_cons_self c cs)
        · exact Or.inr (List.mem_cons_of_mem c h)
      · rintro (h | h)
        · exact Or.inl (List.mem_append.mpr (Or.inl h))
        · cases List.mem_cons.mp h with
          | inl he => exact Or.inl (List.mem_append.mpr (Or.inr (by simp [he])))
          | inr h => exact Or.inr h

/-- The scan is pointwise the index of each character in the first-occurrence
order of the distinct characters. -/
theorem scanSig_eq_map (w : List T) :
    ∀ seen : List T, scanSig seen w = w.map fun c => idxOf c (accSeen seen w) := by
  induction w with
  | nil => intro seen; rfl
  | cons c cs ih =>
    intro seen
    by_cases hc : c ∈ seen
    · rcases accSeen_suffix cs seen with ⟨t, ht⟩
      rw [scanSig, if_pos hc, accSeen_cons, if_pos hc, List.map_cons, ih seen, ht,
        idxOf_append_left t hc]
    · rcases accSeen_suffix cs (seen ++ [c]) with ⟨t, ht⟩
      have hmem : c ∈ seen ++ [c] := List.mem_append.mpr (Or.inr (by simp))
      have hidx : idxOf c (accSeen (seen ++ [c]) cs) = seen.length := by
        rw [ht, idxOf_append_left t hmem, idxOf_append_right [c] hc]
        simp [idxOf]
      rw [scanSig, if_neg hc, accSeen_cons, if_neg hc, List.map_cons, ih (seen ++ [c]), hidx]

theorem length_scanSig (w : List T) (seen : List T) : (scanSig seen w).length = w.length := by
  rw [scanSig_eq_map, List.length_map]

/-- Every value of the scan of a full word is an index into its distinct-character
list. -/
theorem scanSig_values_lt {w : List T} {x : Nat} (hx : x ∈ scanSig [] w) :
    x < (accSeen [] w).length := by
  rw [scanSig_eq_map] at hx
  rcases List.mem_map.mp hx with ⟨c, hc, rfl⟩
  exact idxOf_lt_length (mem_accSeen.mpr (Or.inr hc))

/-- Bridge between the source's `u8` loop and the spec-level scan: the source
computes the spec scan reduced modulo 256. -/
theorem sigLoop_eq_scanSig (w : List T) :
    ∀ (seen : List T) (m : List (T × Nat)),
      (∀ c, alookup c m = if c ∈ seen then some (idxOf c seen % 256) else none) →
      sigLoop w m (seen.length % 256) = (scanSig seen w).map (· % 256) := by
  induction w with
  | nil => intro seen m _; rfl
  | cons c cs ih =>
    intro seen m hm
    by_cases hc : c ∈ seen
    · rw [sigLoop, hm c, if_pos hc, scanSig, if_pos hc, List.map_cons, ih seen m hm]
    · have hm' : ∀ c', alookup c' ((c, seen.length % 256) :: m) =
          if c' ∈ seen ++ [c] then some (idxOf c' (seen ++ [c]) % 256) else none := by
        intro c'
        by_cases hcc : c' = c
        · subst hcc
          have : idxOf c' (seen ++ [c']) = seen.length := by
            rw [idxOf_append_right [c'] hc]; simp [idxOf]
          simp [alookup_cons, this, List.mem_append]
        · have hmem : (c' ∈ seen ++ [c]) ↔ c' ∈ seen := by
            simp [List.mem_append, hcc]
          rw [alookup_cons, if_neg hcc, hm c']
          by_cases hcs : c' ∈ seen
          · rw [if_pos hcs, if_pos (hmem.mpr hcs), idxOf_append_left [c] hcs]
          · rw [if_neg hcs, if_neg (fun h => hcs (hmem.mp h))]
      have hlen : (seen.length % 256 + 1) % 256 = (seen ++ [c]).length % 256 := by
        simp [List.length_append]
      have hred : sigLoop (c :: cs) m (seen.length % 256) =
          seen.length % 256 ::
            sigLoop cs ((c, seen.length % 256) :: m) ((seen.length % 256 + 1) % 256) := by
        rw [sigLoop, hm c]
        simp [hc]
      rw [hred, hlen, ih (seen ++ [c]) ((c, seen.length % 256) :: m) hm', scanSig,
        if_neg hc, List.map_cons]

/-- The signature actually computed by the source is the spec scan modulo 256. -/
theorem signature_eq_scanSig_mod (w : List T) :
    (IsomorphSignature.from_isomorphic w).signature = (scanSig [] w).map (· % 256) := by
  have h := sigLoop_eq_scanSig w [] [] (fun c => by simp)
  simpa [IsomorphSignature.from_isomorphic] using h

/-- For a word with at most 256 distinct characters the wraparound is invisible:
the source signature coincides with the spec scan. -/
theorem signature_eq_scanSig_of_le {w : List T} (h : (accSeen [] w).length ≤ 256) :
    (IsomorphSignature.from_isomorphic w).signature = scanSig [] w := by
  rw [signature_eq_scanSig_mod]
  have : ∀ x ∈ scanSig [] w, x % 256 = x := fun x hx =>
    Nat.mod_eq_of_lt (Nat.lt_of_lt_of_le (scanSig_values_lt hx) h)
  calc (scanSig [] w).map (· % 256) = (scanSig [] w).map id := List.map_congr_left this
    _ = scanSig [] w := List.map_id _

/-- Positional equality is reflected faithfully by the unwrapped scan. -/
theorem scanSig_get_eq_iff {w : List T} {i j : Nat} (hi : i < w.length) (hj : j < w.length)
    (hi' : i < (scanSig [] w).length) (hj' : j < (scanSig [] w).length) :
    (scanSig [] w).get ⟨i, hi'⟩ = (scanSig [] w).get ⟨j, hj'⟩ ↔
      w.get ⟨i, hi⟩ = w.get ⟨j, hj⟩ := by
  have hmap := scanSig_eq_map w []
  constructor
  · intro h
    have hgi : (scanSig [] w).get ⟨i, hi'⟩ = idxOf (w.get ⟨i, hi⟩) (accSeen [] w) := by
      simp [hmap]
    have hgj : (scanSig [] w).get ⟨j, hj'⟩ = idxOf (w.get ⟨j, hj⟩) (accSeen [] w) := by
      simp [hmap]
    rw [hgi, hgj] at h
    exact idxOf_inj (mem_accSeen.mpr (Or.inr (w.get_mem i hi)))
      (mem_accSeen.mpr (Or.inr (w.get_mem j hj))) h
  · intro h
    have h' : w[i] = w[j] := by simpa using h
    simp [hmap, h']

/-- `Isomorphic A B`: a bijection between the characters of `A` and the characters
of `B` (given by the two directions `f`, `g`) consistent with positional equality
in both directions. -/
def Isomorphic (A B : List T) : Prop :=
  A.length = B.length ∧
  ∃ f g : T → T,
    (∀ i (hA : i < A.length) (hB : i < B.length), f (A.get ⟨i, hA⟩) = B.get ⟨i, hB⟩) ∧
    (∀ i (hA : i < A.length) (hB : i < B.length), g (B.get ⟨i, hB⟩) = A.get ⟨i, hA⟩)

/-- Pairwise-consistent pair lists assign the same first index to the two
components of any consistent pair. -/
theorem idxOf_pair (a b : T) :
    ∀ seen : List (T × T),
      (∀ q ∈ seen, (q.1 = a ↔ q.2 = b)) →
      idxOf a (seen.map Prod.fst) = idxOf b (seen.map Prod.snd) ∧
        (a ∈ seen.map Prod.fst ↔ b ∈ seen.map Prod.snd) := by
  intro seen
  induction seen with
  | nil => intro _; exact ⟨rfl, by simp⟩
  | cons p rest ih =>
    intro hcons
    have hhead := hcons p (List.mem_cons_self p rest)
    have htail := ih fun q hq => hcons q (List.mem_cons_of_mem p hq)
    by_cases hax : a = p.1
    · have hby : b = p.2 := (hhead.mp hax.symm).symm
      constructor
      · simp [idxOf_cons, hax, hby]
      · simp [hax, hby]
    · have hby : b ≠ p.2 := fun he => hax (hhead.mpr he.symm).symm
      constructor
      · simp [idxOf_cons, hax, hby, htail.1]
      · simp [hax, hby, htail.2]

/-- The unwrapped scan depends only on the positional-equality structure: scanning
the two components of a pairwise-consistent pair list gives equal outputs. -/
theorem scanSig_zip_congr :
    ∀ pl seen : List (T × T),
      (∀ p ∈ seen ++ pl, ∀ q ∈ seen ++ pl, (p.1 = q.1 ↔ p.2 = q.2)) →
      scanSig (seen.map Prod.fst) (pl.map Prod.fst) =
        scanSig (seen.map Prod.snd) (pl.map Prod.snd) := by
  intro pl
  induction pl with
  | nil => intro seen _; rfl
  | cons p rest ih =>
    intro seen hcons
    have hp : p ∈ seen ++ p :: rest := List.mem_append.mpr (Or.inr (List.mem_cons_self p rest))
    have hpair := idxOf_pair p.1 p.2 seen fun q hq =>
      hcons q (List.mem_append.mpr (Or.inl hq)) p hp
    rw [List.map_cons, List.map_cons]
    by_cases hmem : p.1 ∈ seen.map Prod.fst
    · have hmem' : p.2 ∈ seen.map Prod.snd := hpair.2.mp hmem
      have hrest : ∀ p' ∈ seen ++ rest, ∀ q ∈ seen ++ rest, (p'.1 = q.1 ↔ p'.2 = q.2) := by
        intro p' hp' q hq
        have hsub : ∀ r : T × T, r ∈ seen ++ rest → r ∈ seen ++ p :: rest := by
          intro r hr
          rcases List.mem_append.mp hr with h | h
          · exact List.mem_append.mpr (Or.inl h)
          · exact List.mem_append.mpr (Or.inr (List.mem_cons_of_mem p h))
        exact hcons p' (hsub p' hp') q (hsub q hq)
      rw [scanSig, if_pos hmem, scanSig, if_pos hmem', hpair.1, ih seen hrest]
    · have hmem' : p.2 ∉ seen.map Prod.snd := fun h => hmem (hpair.2.mpr h)
      have hrest : ∀ p' ∈ (seen ++ [p]) ++ rest, ∀ q ∈ (seen ++ [p]) ++ rest,
          (p'.1 = q.1 ↔ p'.2 = q.2) := by
        intro p' hp' q hq
        have hsub : ∀ r : T × T, r ∈ (seen ++ [p]) ++ rest → r ∈ seen ++ p :: rest := by
          intro r hr
          simp only [List.mem_append, List.mem_cons, List.mem_singleton] at hr ⊢
          tauto
        exact hcons p' (hsub p' hp') q (hsub q hq)
      have hlen : (seen.map Prod.fst).length = (seen.map Prod.snd).length := by
        simp
      have := ih (seen ++ [p]) hrest
      rw [List.map_append, List.map_append] at this
      simp only [List.map_cons, List.map_nil] at this
      rw [scanSig, if_neg hmem, scanSig, if_neg hmem', hlen, this]

/-- Canonical-form theorem for the unwrapped scan: two words get the same scan
exactly when they are isomorphic. -/
theorem scanSig_eq_iff_isomorphic (A B : List T) :
    scanSig [] A = scanSig [] B ↔ Isomorphic A B := by
  constructor
  · intro h
    have hlen : A.length = B.length := by
      have h1 := length_scanSig A ([] : List T)
      rw [h, length_scanSig] at h1
      exact h1.symm
    have hgetsig : ∀ i (hiA : i < A.length) (hiB : i < B.length),
        idxOf (A.get ⟨i, hiA⟩) (accSeen [] A) = idxOf (B.get ⟨i, hiB⟩) (accSeen [] B) := by
      intro i hiA hiB
      have h0 : (scanSig [] A)[i]? = (scanSig [] B)[i]? := by rw [h]
      rw [List.getElem?_eq_getElem (by rw [length_scanSig]; exact hiA),
        List.getElem?_eq_getElem (by rw [length_scanSig]; exact hiB)] at h0
      have h0' := Option.some.inj h0
      simp only [List.get_eq_getElem]
      simpa [scanSig_eq_map] using h0'
    refine ⟨hlen, ?_⟩
    refine ⟨fun a => if h : a ∈ A then B.get ⟨idxOf a A, hlen ▸ idxOf_lt_length h⟩ else a,
      fun b => if h : b ∈ B then A.get ⟨idxOf b B, hlen.symm ▸ idxOf_lt_length h⟩ else b,
      ?_, ?_⟩
    · intro i hiA hiB
      have hmem : A.get ⟨i, hiA⟩ ∈ A := A.get_mem i hiA
      dsimp only
      rw [dif_pos hmem]
      have hj : idxOf (A.get ⟨i, hiA⟩) A < A.length := idxOf_lt_length hmem
      have hjB : idxOf (A.get ⟨i, hiA⟩) A < B.length := hlen ▸ hj
      have hAj : A.get ⟨idxOf (A.get ⟨i, hiA⟩) A, hj⟩ = A.get ⟨i, hiA⟩ := get_idxOf hmem hj
      have e1 := hgetsig (idxOf (A.get ⟨i, hiA⟩) A) hj hjB
      have e2 := hgetsig i hiA hiB
      rw [hAj] at e1
      exact idxOf_inj (mem_accSeen.mpr (Or.inr (B.get_mem _ hjB)))
        (mem_accSeen.mpr (Or.inr (B.get_mem i hiB))) (e1.symm.trans e2)
    · intro i hiA hiB
      have hmem : B.get ⟨i, hiB⟩ ∈ B := B.get_mem i hiB
      dsimp only
      rw [dif_pos hmem]
      have hj : idxOf (B.get ⟨i, hiB⟩) B < B.length := idxOf_lt_length hmem
      have hjA : idxOf (B.get ⟨i, hiB⟩) B < A.length := hlen.symm ▸ hj
      have hBj : B.get ⟨idxOf (B.get ⟨i, hiB⟩) B, hj⟩ = B.get ⟨i, hiB⟩ := get_idxOf hmem hj
      have e1 := hgetsig (idxOf (B.get ⟨i, hiB⟩) B) hjA hj
      have e2 := hgetsig i hiA hiB
      rw [hBj] at e1
      exact idxOf_inj (mem_accSeen.mpr (Or.inr (A.get_mem _ hjA)))
        (mem_accSeen.mpr (Or.inr (A.get_mem i hiA))) (e1.trans e2.symm)
  · rintro ⟨hlen, f, g, hf, hg⟩
    have hcons : ∀ p ∈ A.zip B, ∀ q ∈ A.zip B, (p.1 = q.1 ↔ p.2 = q.2) := by
      intro p hp q hq
      rcases List.mem_iff_get.mp hp with ⟨ip, hip⟩
      rcases List.mem_iff_get.mp hq with ⟨iq, hiq⟩
      have hzlen : (A.zip B).length = A.length := by
        rw [List.length_zip, hlen, Nat.min_self]
      have hipA : ip.1 < A.length := by rw [← hzlen]; exact ip.2
      have hipB : ip.1 < B.length := hlen ▸ hipA
      have hiqA : iq.1 < A.length := by rw [← hzlen]; exact iq.2
      have hiqB : iq.1 < B.length := hlen ▸ hiqA
      have hpv : p = (A.get ⟨ip.1, hipA⟩, B.get ⟨ip.1, hipB⟩) := by
        rw [← hip]
        simp [List.get_eq_getElem, List.getElem_zip]
      have hqv : q = (A.get ⟨iq.1, hiqA⟩, B.get ⟨iq.1, hiqB⟩) := by
        rw [← hiq]
        simp [List.get_eq_getElem, List.getElem_zip]
      subst hpv; subst hqv
      constructor
      · intro he
        have h1 := hf ip.1 hipA hipB
        have h2 := hf iq.1 hiqA hiqB
        dsimp only at he ⊢
        rw [← h1, ← h2, he]
      · intro he
        have h1 := hg ip.1 hipA hipB
        have h2 := hg iq.1 hiqA hiqB
        dsimp only at he ⊢
        rw [← h1, ← h2, he]
    have := scanSig_zip_congr (A.zip B) [] (by simpa using hcons)
    have hAB : A.length ≤ B.length := hlen.le
    have hBA : B.length ≤ A.length := hlen.ge
    simpa [List.map_fst_zip A B hAB, List.map_snd_zip A B hBA] using this

/-- Under the 256-distinct-characters bound, signature equality in the source is
exactly isomorphism. -/
theorem from_isomorphic_sig_iff (A B : List T)
    (hA : (accSeen [] A).length ≤ 256) (hB : (accSeen [] B).length ≤ 256) :
    ((IsomorphSignature.from_isomorphic A).signature =
        (IsomorphSignature.from_isomorphic B).signature) ↔ Isomorphic A B := by
  rw [signature_eq_scanSig_of_le hA, signature_eq_scanSig_of_le hB]
  exact scanSig_eq_iff_isomorphic A B

theorem dedup_length_eq_iff (l : List Nat) : l.dedup.length = l.length ↔ l.Nodup := by
  constructor
  · intro h
    have he : l.dedup = l := (List.dedup_sublist l).eq_of_length h
    rw [← he]
    exact List.nodup_dedup l
  · intro h
    rw [List.dedup_eq_self.mpr h]

/-- The `good` flag is the boolean "number of distinct signature values differs
from the signature length", i.e. "the signature has a repeated value". -/
theorem good_iff_not_nodup (w : List T) :
    (IsomorphSignature.from_isomorphic w).good = true ↔
      ¬ (IsomorphSignature.from_isomorphic w).signature.Nodup := by
  have : (IsomorphSignature.from_isomorphic w).good =
      ((IsomorphSignature.from_isomorphic w).signature.dedup.length !=
        (IsomorphSignature.from_isomorphic w).signature.length) := rfl
  rw [this, bne_iff_ne, Ne, dedup_length_eq_iff]

/-- Under the 256-distinct-characters bound, the signature has repeated values
exactly when the word has repeated characters. -/
theorem sig_nodup_iff {w : List T} (h : (accSeen [] w).length ≤ 256) :
    (IsomorphSignature.from_isomorphic w).signature.Nodup ↔ w.Nodup := by
  rw [signature_eq_scanSig_of_le h, scanSig_eq_map]
  constructor
  · intro hn
    exact hn.of_map _
  · intro hn
    refine hn.map_on ?_
    intro x hx y hy he
    exact idxOf_inj (mem_accSeen.mpr (Or.inr hx)) (mem_accSeen.mpr (Or.inr hy)) he

/-- `ColourKey` from the source.  The `usize` index is modelled as a natural:
keys are allocated at most once per input word, and a Rust `Vec` holds fewer
than 2^63 elements, so `idx + 1` cannot overflow. -/
structure ColourKey where
  idx : Nat
deriving DecidableEq, Repr

/-- `ColourKey::next`. -/
def ColourKey.next (k : ColourKey) : ColourKey := ⟨k.idx + 1⟩

/-- `ColourKey::reify`: index the table at `idx % len`.  `none` models the panic
on an empty table (`idx % 0` is a remainder-by-zero in Rust). -/
def ColourKey.reify {C : Type} (k : ColourKey) (table : List C) : Option C :=
  table[k.idx % table.length]?

/-- `ColouredObject` from the source. -/
structure ColouredObject (R : Type) where
  value : R
  colour : Option ColourKey
deriving DecidableEq

/-- `IsomorphicHolder` from the source: the character iterator (materialised as
a list) plus the response value. -/
structure IsomorphicHolder (T R : Type) where
  iter : List T
  response : R
deriving DecidableEq

/-- In-place overwrite of the value stored under an existing key, modelling
`*x = e.good` through `HashMap::get_mut`. -/
def updateFirst {V : Type} (k : T) (v : V) : List (T × V) → List (T × V)
  | [] => []
  | p :: m => if p.1 = k then (k, v) :: m else p :: updateFirst k v m

/-- One step of the `counters` aggregation in `colour`: on a hit overwrite the
stored flag with `e.good`, on a miss insert `false`. -/
def counterStep (m : List (IsomorphSignature × Bool)) (e : IsomorphSignature) :
    List (IsomorphSignature × Bool) :=
  match alookup e m with
  | some _ => updateFirst e e.good m
  | none => (e, false) :: m

/-- The `counters` map of `colour` after the aggregation pass. -/
def buildCounters (sigs : List IsomorphSignature) : List (IsomorphSignature × Bool) :=
  sigs.foldl counterStep []

/-- The mutable state threaded through the emission pass of `colour`:
`colour_map` and the `colour` key allocator. -/
structure EmitState where
  colourMap : List (IsomorphSignature × ColourKey)
  next : ColourKey
deriving DecidableEq

/-- One step of the emission pass of `colour` for a single `(response, signature)`
pair.  `none` models the `unreachable!()` panic. -/
def emitOne {R : Type} (counters : List (IsomorphSignature × Bool)) (st : EmitState)
    (p : R × IsomorphSignature) : Option (EmitState × ColouredObject R) :=
  match alookup p.2 counters with
  | none => none
  | some false => some (st, ⟨p.1, none⟩)
  | some true =>
    match alookup p.2 st.colourMap with
    | some c => some (st, ⟨p.1, some c⟩)
    | none => some (⟨(p.2, st.next) :: st.colourMap, st.next.next⟩, ⟨p.1, some st.next⟩)

/-- The emission pass of `colour` over the whole pair list. -/
def emitAll {R : Type} (counters : List (IsomorphSignature × Bool)) :
    EmitState → List (R × IsomorphSignature) → Option (List (ColouredObject R))
  | _, [] => some []
  | st, p :: ps =>
    match emitOne counters st p with
    | none => none
    | some (st', o) =>
      match emitAll counters st' ps with
      | none => none
      | some rest => some (o :: rest)

/-- The `colour` function from the source: compute `(response, signature)` pairs,
aggregate the per-signature `counters`, then emit the coloured objects, starting
from the empty `colour_map` and `ColourKey::default()`. -/
def colour {R : Type} (words : List (IsomorphicHolder T R)) :
    Option (List (ColouredObject R)) :=
  let iso := words.map fun w => (w.response, IsomorphSignature.from_isomorphic w.iter)
  emitAll (buildCounters (iso.map Prod.snd)) ⟨[], ⟨0⟩⟩ iso

/-- The signature sequence of an input word list, in input order. -/
def sigList {R : Type} (words : List (IsomorphicHolder T R)) : List IsomorphSignature :=
  words.map fun w => IsomorphSignature.from_isomorphic w.iter

/-- A signature qualifies for colouring: it occurs at least twice in the input's
signature sequence and its `good` flag is set. -/
def qualifies (sigs : List IsomorphSignature) (e : IsomorphSignature) : Bool :=
  decide (2 ≤ cnt e sigs) && e.good

theorem alookup_updateFirst_self {V : Type} (k : T) (v : V) (m : List (T × V)) :
    alookup k (updateFirst k v m) = (alookup k m).map fun _ => v := by
  induction m with
  | nil => rfl
  | cons p m ih =>
    by_cases hp : p.1 = k
    · simp [updateFirst, hp, alookup_cons]
    · have hk : k ≠ p.1 := fun he => hp he.symm
      simp [updateFirst, hp, alookup_cons, hk, ih]

theorem alookup_updateFirst_ne {V : Type} {k k' : T} (h : k' ≠ k) (v : V) (m : List (T × V)) :
    alookup k' (updateFirst k v m) = alookup k' m := by
  induction m with
  | nil => rfl
  | cons p m ih =>
    by_cases hp : p.1 = k
    · have h1 : k' ≠ p.1 := fun he => h (he.trans hp)
      simp [updateFirst, hp, alookup_cons, h1, if_neg h]
    · simp [updateFirst, hp, alookup_cons, ih]

theorem alookup_counterStep_ne {m : List (IsomorphSignature × Bool)}
    {e e' : IsomorphSignature} (h : e ≠ e') :
    alookup e (counterStep m e') = alookup e m := by
  unfold counterStep
  cases halm : alookup e' m with
  | none => simp [alookup_cons, if_neg h]
  | some b => exact alookup_updateFirst_ne h _ m

theorem alookup_counterFold (sigs : List IsomorphSignature) :
    ∀ (m : List (IsomorphSignature × Bool)) (e : IsomorphSignature),
      alookup e (sigs.foldl counterStep m) =
        if 0 < cnt e sigs then
          (if (alookup e m).isSome = true ∨ 2 ≤ cnt e sigs then some e.good else some false)
        else alookup e m := by
  induction sigs with
  | nil => intro m e; simp
  | cons e' rest ih =>
    intro m e
    rw [List.foldl_cons]
    by_cases he : e' = e
    · subst he
      have hcnt : cnt e' (e' :: rest) = 1 + cnt e' rest := by simp [cnt_cons]
      rw [ih (counterStep m e') e']
      cases halm : alookup e' m with
      | some b =>
        have hstep : counterStep m e' = updateFirst e' e'.good m := by
          unfold counterStep; rw [halm]
        have hlook : alookup e' (counterStep m e') = some e'.good := by
          rw [hstep, alookup_updateFirst_self, halm]; rfl
        have h1 : 0 < cnt e' (e' :: rest) := by rw [hcnt]; omega
        rw [hlook]
        simp [h1]
      | none =>
        have hstep : counterStep m e' = (e', false) :: m := by
          unfold counterStep; rw [halm]
        have hlook : alookup e' (counterStep m e') = some false := by
          rw [hstep]; simp [alookup_cons]
        have h1 : 0 < cnt e' (e' :: rest) := by rw [hcnt]; omega
        rw [hlook]
        by_cases hr : 0 < cnt e' rest
        · have h2 : 2 ≤ 1 + cnt e' rest := by omega
          simp [hr, h1, h2]
        · have h2 : ¬ (2 ≤ 1 + cnt e' rest) := by omega
          simp [hr, h1, h2]
    · have hne : e ≠ e' := fun h => he h.symm
      have hcnt : cnt e (e' :: rest) = cnt e rest := by simp [cnt_cons, he]
      rw [ih (counterStep m e') e, alookup_counterStep_ne hne, hcnt]

theorem alookup_buildCounters {sigs : List IsomorphSignature} {e : IsomorphSignature}
    (h : e ∈ sigs) :
    alookup e (buildCounters sigs) = some (qualifies sigs e) := by
  rw [buildCounters, alookup_counterFold]
  rw [if_pos (cnt_pos_iff_mem.mpr h)]
  simp only [alookup_nil, Option.isSome_none, Bool.false_eq_true, false_or]
  unfold qualifies
  by_cases h2 : 2 ≤ cnt e sigs
  · rw [if_pos h2]
    simp [h2]
  · rw [if_neg h2]
    simp [h2]

theorem emitAll_nil {R : Type} (counters : List (IsomorphSignature × Bool))
    (st : EmitState) : emitAll counters st ([] : List (R × IsomorphSignature)) = some [] := rfl

theorem emitAll_cons {R : Type} (counters : List (IsomorphSignature × Bool))
    (st : EmitState) (p : R × IsomorphSignature) (ps : List (R × IsomorphSignature)) :
    emitAll counters st (p :: ps) =
      match emitOne counters st p with
      | none => none
      | some (st', o) =>
        match emitAll counters st' ps with
        | none => none
        | some rest => some (o :: rest) := rfl

/-- Master characterisation of the emission pass.  `s` is the list of qualifying
signatures already assigned colour keys, in assignment order; the state holds the
corresponding `colour_map` and allocator.  Every word is emitted, with a colour
key exactly when its signature qualifies, and the key is the index of the
signature in first-encounter order over the qualifying occurrences. -/
theorem emitAll_go {R : Type} (counters : List (IsomorphSignature × Bool))
    (Q : IsomorphSignature → Bool) :
    ∀ (ps : List (R × IsomorphSignature)) (s : List IsomorphSignature) (st : EmitState),
      (∀ p ∈ ps, alookup p.2 counters = some (Q p.2)) →
      (∀ e, alookup e st.colourMap = if e ∈ s then some ⟨idxOf e s⟩ else none) →
      st.next = ⟨s.length⟩ →
      ∃ out, emitAll counters st ps = some out ∧
        out.length = ps.length ∧
        out.map (fun o => o.value) = ps.map Prod.fst ∧
        ∀ i (hi : i < out.length) (hp : i < ps.length),
          (out.get ⟨i, hi⟩).colour =
            if Q (ps.get ⟨i, hp⟩).2 = true then
              some ⟨idxOf (ps.get ⟨i, hp⟩).2 (accSeen s ((ps.map Prod.snd).filter Q))⟩
            else none := by
  intro ps
  induction ps with
  | nil =>
    intro s st hc hmap hnext
    exact ⟨[], rfl, rfl, rfl, fun i hi hp => absurd hp (by simp)⟩
  | cons p ps ih =>
    intro s st hc hmap hnext
    obtain ⟨r, e⟩ := p
    have hce : alookup e counters = some (Q e) := hc (r, e) (List.mem_cons_self _ _)
    cases hQ : Q e with
    | false =>
      have hone : emitOne counters st (r, e) = some (st, ⟨r, none⟩) := by
        simp only [emitOne, hce, hQ]
      obtain ⟨out', ho', hlen', hval', hcol'⟩ :=
        ih s st (fun q hq => hc q (List.mem_cons_of_mem _ hq)) hmap hnext
      have hfil : List.filter Q (e :: List.map Prod.snd ps) =
          List.filter Q (List.map Prod.snd ps) := by
        simp [List.filter_cons, hQ]
      refine ⟨⟨r, none⟩ :: out', ?_, ?_, ?_, ?_⟩
      · simp only [emitAll_cons, hone, ho']
      · simp [hlen']
      · simp [hval']
      · intro i hi hp
        cases i with
        | zero => simp [hQ]
        | succ n =>
          have hi' : n < out'.length := by simpa using hi
          have hp' : n < ps.length := by simpa using hp
          have := hcol' n hi' hp'
          simpa [hfil] using this
    | true =>
      by_cases hm : e ∈ s
      · have hlooks : alookup e st.colourMap = some ⟨idxOf e s⟩ := by
          rw [hmap e, if_pos hm]
        have hone : emitOne counters st (r, e) = some (st, ⟨r, some ⟨idxOf e s⟩⟩) := by
          simp only [emitOne, hce, hQ, hlooks]
        obtain ⟨out', ho', hlen', hval', hcol'⟩ :=
          ih s st (fun q hq => hc q (List.mem_cons_of_mem _ hq)) hmap hnext
        have hfil : List.filter Q (e :: List.map Prod.snd ps) =
            e :: List.filter Q (List.map Prod.snd ps) := by
          simp [List.filter_cons, hQ]
        have hacc : accSeen s (e :: (ps.map Prod.snd).filter Q) =
            accSeen s ((ps.map Prod.snd).filter Q) := by
          rw [accSeen_cons, if_pos hm]
        have hidx : idxOf e (accSeen s ((ps.map Prod.snd).filter Q)) = idxOf e s := by
          rcases accSeen_suffix ((ps.map Prod.snd).filter Q) s with ⟨t, ht⟩
          rw [ht, idxOf_append_left t hm]
        refine ⟨⟨r, some ⟨idxOf e s⟩⟩ :: out', ?_, ?_, ?_, ?_⟩
        · simp only [emitAll_cons, hone, ho']
        · simp [hlen']
        · simp [hval']
        · intro i hi hp
          cases i with
          | zero => simp [hQ, hfil, hacc, hidx]
          | succ n =>
            have hi' : n < out'.length := by simpa using hi
            have hp' : n < ps.length := by simpa using hp
            have := hcol' n hi' hp'
            simpa [hfil, hacc] using this
      · have hlookn : alookup e st.colourMap = none := by
          rw [hmap e, if_neg hm]
        have hone : emitOne counters st (r, e) =
            some (⟨(e, ⟨s.length⟩) :: st.colourMap, ⟨s.length + 1⟩⟩,
              ⟨r, some ⟨s.length⟩⟩) := by
          simp only [emitOne, hce, hQ, hlookn, hnext, ColourKey.next]
        have hmap' : ∀ e', alookup e' ((e, (⟨s.length⟩ : ColourKey)) :: st.colourMap) =
            if e' ∈ s ++ [e] then some ⟨idxOf e' (s ++ [e])⟩ else none := by
          intro e'
          by_cases hee : e' = e
          · subst hee
            have hsl : idxOf e' (s ++ [e']) = s.length := by
              rw [idxOf_append_right [e'] hm]
              simp [idxOf]
            simp [alookup_cons, hsl, List.mem_append]
          · have hmm : (e' ∈ s ++ [e]) ↔ e' ∈ s := by
              simp [List.mem_append, hee]
            rw [alookup_cons, if_neg hee, hmap e']
            by_cases hes : e' ∈ s
            · rw [if_pos hes, if_pos (hmm.mpr hes), idxOf_append_left [e] hes]
            · rw [if_neg hes, if_neg (fun h => hes (hmm.mp h))]
        have hnext' : (⟨(e, (⟨s.length⟩ : ColourKey)) :: st.colourMap,
            (⟨s.length + 1⟩ : ColourKey)⟩ : EmitState).next = ⟨(s ++ [e]).length⟩ := by
          simp
        obtain ⟨out', ho', hlen', hval', hcol'⟩ :=
          ih (s ++ [e]) ⟨(e, ⟨s.length⟩) :: st.colourMap, ⟨s.length + 1⟩⟩
            (fun q hq => hc q (List.mem_cons_of_mem _ hq)) hmap' hnext'
        have hfil : List.filter Q (e :: List.map Prod.snd ps) =
            e :: List.filter Q (List.map Prod.snd ps) := by
          simp [List.filter_cons, hQ]
        have hacc : accSeen s (e :: (ps.map Prod.snd).filter Q) =
            accSeen (s ++ [e]) ((ps.map Prod.snd).filter Q) := by
          rw [accSeen_cons, if_neg hm]
        have hidx : idxOf e (accSeen (s ++ [e]) ((ps.map Prod.snd).filter Q)) = s.length := by
          rcases accSeen_suffix ((ps.map Prod.snd).filter Q) (s ++ [e]) with ⟨t, ht⟩
          have hmem : e ∈ s ++ [e] := List.mem_append.mpr (Or.inr (by simp))
          rw [ht, idxOf_append_left t hmem, idxOf_append_right [e] hm]
          simp [idxOf]
        refine ⟨⟨r, some ⟨s.length⟩⟩ :: out', ?_, ?_, ?_, ?_⟩
        · simp only [emitAll_cons, hone, ho']
        · simp [hlen']
        · simp [hval']
        · intro i hi hp
          cases i with
          | zero => simp [hQ, hfil, hacc, hidx]
          | succ n =>
            have hi' : n < out'.length := by simpa using hi
            have hp' : n < ps.length := by simpa using hp
            have := hcol' n hi' hp'
            simpa [hfil, hacc] using this

/-- Top-level characterisation of `colour`: it always succeeds, it preserves the
responses in order, and it colours exactly the qualifying signatures, with keys
given by first-encounter order among qualifying occurrences. -/
theorem colour_spec {R : Type} (words : List (IsomorphicHolder T R)) :
    ∃ out, colour words = some out ∧
      out.length = words.length ∧
      out.map (fun o => o.value) = words.map (fun w => w.response) ∧
      ∀ i (hi : i < out.length) (hw : i < (sigList words).length),
        (out.get ⟨i, hi⟩).colour =
          if qualifies (sigList words) ((sigList words).get ⟨i, hw⟩) = true then
            some ⟨idxOf ((sigList words).get ⟨i, hw⟩)
              (accSeen [] ((sigList words).filter (qualifies (sigList words))))⟩
          else none := by
  classical
  set iso := words.map fun w => (w.response, IsomorphSignature.from_isomorphic w.iter) with hiso
  have hsnd : iso.map Prod.snd = sigList words := by
    simp [hiso, sigList, List.map_map, Function.comp]
  have hfst : iso.map Prod.fst = words.map fun w => w.response := by
    simp [hiso, List.map_map, Function.comp]
  have hc : ∀ p ∈ iso, alookup p.2 (buildCounters (iso.map Prod.snd)) =
      some (qualifies (sigList words) p.2) := by
    intro p hp
    have : p.2 ∈ iso.map Prod.snd := List.mem_map.mpr ⟨p, hp, rfl⟩
    rw [hsnd] at this
    rw [hsnd]
    exact alookup_buildCounters this
  obtain ⟨out, ho, hlen, hval, hcol⟩ :=
    emitAll_go (buildCounters (iso.map Prod.snd)) (qualifies (sigList words)) iso []
      ⟨[], ⟨0⟩⟩ hc (fun e => by simp) rfl
  have hlen2 : iso.length = words.length := by simp [hiso]
  have hlen3 : (sigList words).length = words.length := by simp [sigList]
  refine ⟨out, ho, by rw [hlen, hlen2], by rw [hval, hfst], ?_⟩
  intro i hi hw
  have hp : i < iso.length := by rw [hlen2, ← hlen3]; exact hw
  have hget : (iso.get ⟨i, hp⟩).2 = (sigList words).get ⟨i, hw⟩ := by
    simp [hiso, sigList]
  have := hcol i hi hp
  rw [hget, hsnd] at this
  exact this

/-- The ANSI reset string `"\x1B[0m"` (`RESET` in the source), as characters. -/
def RESET : List Char := ['\x1B', '[', '0', 'm']

/-- Decimal digits of a natural, as produced by Rust's `to_string` (fuel-driven
structural recursion so that it evaluates inside `decide`; fuel `n + 1` always
suffices because the argument shrinks by a factor of ten each step). -/
def natToDigitsAux : Nat → Nat → List Char
  | 0, _ => []
  | fuel + 1, n =>
    if n < 10 then [Char.ofNat (48 + n)]
    else natToDigitsAux fuel (n / 10) ++ [Char.ofNat (48 + n % 10)]

def natToDigits (n : Nat) : List Char := natToDigitsAux (n + 1) n

/-- `DiscordColour` from the source (`value` is a `u8`; every value built by the
program is `remainder + 30 < 38`, so no overflow is possible). -/
structure DiscordColour where
  value : Nat
deriving DecidableEq, Repr

/-- `DiscordColour::ansify`: `"\x1B[" + value.to_string() + "m"`. -/
def DiscordColour.ansify (c : DiscordColour) : List Char :=
  '\x1B' :: '[' :: (natToDigits c.value ++ ['m'])

/-- `DiscordColourIterator::new(1000).collect::<Vec<_>>()` as built in `main`:
the iterator increments `index` before taking the remainder, so the i-th
collected colour has value `(i + 1) % 8 + 30`. -/
def discordTable : List DiscordColour :=
  (List.range 1000).map fun i => ⟨(i + 1) % 8 + 30⟩

/-- `ColouredObject::ansify` at the instantiation used by `main` (`R = &str`,
colours drawn from a `DiscordColour` table): prefix the text with the reified
colour's escape string when coloured.  `none` propagates the panic of `reify`
on an empty table. -/
def ColouredObject.ansify (co : ColouredObject (List Char)) (table : List DiscordColour) :
    Option (List Char) :=
  match co.colour with
  | some k => (ColourKey.reify k table).map fun c => c.ansify ++ co.value
  | none => some co.value

/-- The rendering pipeline of `main`: `ansify` each word, append `RESET` to every
word, and fold with a trailing space after each word. -/
def renderAll (table : List DiscordColour) :
    List (ColouredObject (List Char)) → Option (List Char)
  | [] => some []
  | co :: cos =>
    match co.ansify table with
    | none => none
    | some s =>
      match renderAll table cos with
      | none => none
      | some r => some (s ++ RESET ++ [' '] ++ r)

/-- `str::split(' ')`: split on every single space; `n` separators yield `n + 1`
fields, and the empty string yields one empty field. -/
def splitOnSpace : List Char → List (List Char)
  | [] => [[]]
  | c :: rest =>
    if c = ' ' then [] :: splitOnSpace rest
    else
      match splitOnSpace rest with
      | [] => [[c]]
      | w :: ws => (c :: w) :: ws

/-- The whole `main` pipeline on an already-read input buffer: split on spaces,
wrap each word in an `IsomorphicHolder` (its characters and itself as response),
colour, and render one output line (without the final newline of `println!`). -/
def mainOutput (buf : List Char) : Option (List Char) :=
  match colour ((splitOnSpace buf).map fun w =>
      (⟨w, w⟩ : IsomorphicHolder Char (List Char))) with
  | none => none
  | some cos => renderAll discordTable cos

/-- ANSI-stripping state machine: outside an escape sequence `'\x1B'` switches to
skipping; inside, everything up to and including the first `'m'` is dropped. -/
def stripAnsiGo : Bool → List Char → List Char
  | _, [] => []
  | false, c :: rest =>
    if c = '\x1B' then stripAnsiGo true rest else c :: stripAnsiGo false rest
  | true, c :: rest => if c = 'm' then stripAnsiGo false rest else stripAnsiGo true rest

/-- Remove all colour and reset escape markers from a rendered line. -/
def stripAnsi (s : List Char) : List Char := stripAnsiGo false s

theorem natToDigitsAux_small {fuel n : Nat} (h : n < 10) (hf : 0 < fuel) :
    natToDigitsAux fuel n = [Char.ofNat (48 + n)] := by
  cases fuel with
  | zero => omega
  | succ f => simp [natToDigitsAux, h]

theorem natToDigits_two {n : Nat} (h1 : 10 ≤ n) (h2 : n < 100) :
    natToDigits n = [Char.ofNat (48 + n / 10), Char.ofNat (48 + n % 10)] := by
  unfold natToDigits
  obtain ⟨m, rfl⟩ : ∃ m, n = m + 1 := ⟨n - 1, by omega⟩
  have hstep : natToDigitsAux (m + 1 + 1) (m + 1) =
      natToDigitsAux (m + 1) ((m + 1) / 10) ++ [Char.ofNat (48 + (m + 1) % 10)] := by
    rw [natToDigitsAux, if_neg (by omega)]
  rw [hstep, natToDigitsAux_small (by omega) (by omega)]
  rfl

theorem digitChar_ne_m {d : Nat} (h : d < 10) : Char.ofNat (48 + d) ≠ 'm' := by
  interval_cases d <;> decide

theorem discordTable_length : discordTable.length = 1000 := by
  simp [discordTable]

theorem discordTable_value {c : DiscordColour} (h : c ∈ discordTable) :
    30 ≤ c.value ∧ c.value < 38 := by
  rcases List.mem_map.mp h with ⟨i, _, rfl⟩
  have := Nat.mod_lt (i + 1) (by omega : 0 < 8)
  constructor
  · simp
  · simp
    omega

/-- On the nonempty table of `main`, `reify` always succeeds and returns a table
member. -/
theorem reify_discordTable (k : ColourKey) :
    ∃ c, ColourKey.reify k discordTable = some c ∧ c ∈ discordTable := by
  have hlt : k.idx % discordTable.length < discordTable.length := by
    rw [discordTable_length]
    omega
  refine ⟨discordTable[k.idx % discordTable.length], ?_, ?_⟩
  · unfold ColourKey.reify
    exact List.getElem?_eq_getElem hlt
  · exact List.getElem_mem hlt

theorem stripGo_true_append {l : List Char} (h : 'm' ∉ l) (t : List Char) :
    stripAnsiGo true (l ++ 'm' :: t) = stripAnsiGo false t := by
  induction l with
  | nil => simp [stripAnsiGo]
  | cons c l ih =>
    have hc : c ≠ 'm' := fun he => h (he ▸ List.mem_cons_self c l)
    have hm : 'm' ∉ l := fun hm => h (List.mem_cons_of_mem c hm)
    simp [stripAnsiGo, hc, ih hm]

theorem stripGo_false_append {w : List Char} (h : '\x1B' ∉ w) (t : List Char) :
    stripAnsiGo false (w ++ t) = w ++ stripAnsiGo false t := by
  induction w with
  | nil => rfl
  | cons c w ih =>
    have hc : c ≠ '\x1B' := fun he => h (he ▸ List.mem_cons_self c w)
    have hm : '\x1B' ∉ w := fun hm => h (List.mem_cons_of_mem c hm)
    simp [stripAnsiGo, hc, ih hm]

theorem strip_reset (t : List Char) :
    stripAnsiGo false (RESET ++ t) = stripAnsiGo false t := by
  show stripAnsiGo false ('\x1B' :: (['[', '0'] ++ 'm' :: t)) = stripAnsiGo false t
  rw [show stripAnsiGo false ('\x1B' :: (['[', '0'] ++ 'm' :: t)) =
      stripAnsiGo true (['[', '0'] ++ 'm' :: t) from by simp [stripAnsiGo]]
  exact stripGo_true_append (by decide) t

/-- Stripping one rendered word: the optional colour prefix and the appended
reset vanish, the word text and the separating space survive. -/
theorem strip_piece {p w : List Char} (t : List Char) (hw : '\x1B' ∉ w)
    (hp : p = [] ∨ ∃ c : DiscordColour, c ∈ discordTable ∧ p = c.ansify) :
    stripAnsiGo false (p ++ w ++ RESET ++ ' ' :: t) = w ++ ' ' :: stripAnsiGo false t := by
  have hspace : ∀ t' : List Char,
      stripAnsiGo false (' ' :: t') = ' ' :: stripAnsiGo false t' := by
    intro t'
    simp [stripAnsiGo]
  have hcore : stripAnsiGo false (w ++ RESET ++ ' ' :: t) = w ++ ' ' :: stripAnsiGo false t := by
    rw [List.append_assoc, stripGo_false_append hw, strip_reset, hspace]
  rcases hp with rfl | ⟨c, hc, rfl⟩
  · simpa using hcore
  · rcases discordTable_value hc with ⟨h30, h38⟩
    have hdig : natToDigits c.value =
        [Char.ofNat (48 + c.value / 10), Char.ofNat (48 + c.value % 10)] :=
      natToDigits_two (by omega) (by omega)
    have hnm : 'm' ∉ '[' :: natToDigits c.value := by
      rw [hdig]
      intro hmem
      rcases List.mem_cons.mp hmem with he | hmem
      · exact absurd he.symm (by decide)
      · rcases List.mem_cons.mp hmem with he | hmem
        · exact absurd he.symm (digitChar_ne_m (by omega))
        · rcases List.mem_cons.mp hmem with he | hmem
          · exact absurd he.symm (digitChar_ne_m (Nat.mod_lt _ (by omega)))
          · cases hmem
    have hshape : c.ansify ++ w ++ RESET ++ ' ' :: t =
        '\x1B' :: (('[' :: natToDigits c.value) ++ 'm' :: (w ++ RESET ++ ' ' :: t)) := by
      simp [DiscordColour.ansify, List.append_assoc]
    rw [hshape]
    rw [show stripAnsiGo false
        ('\x1B' :: (('[' :: natToDigits c.value) ++ 'm' :: (w ++ RESET ++ ' ' :: t))) =
        stripAnsiGo true (('[' :: natToDigits c.value) ++ 'm' :: (w ++ RESET ++ ' ' :: t))
      from by simp [stripAnsiGo]]
    rw [stripGo_true_append hnm, hcore]

/-- Rendering always succeeds on the `main` table, and stripping the rendered
line leaves exactly the word texts, each followed by one space. -/
theorem renderAll_strip (cos : List (ColouredObject (List Char)))
    (hval : ∀ co ∈ cos, '\x1B' ∉ co.value) :
    ∃ r, renderAll discordTable cos = some r ∧
      stripAnsiGo false r = (cos.map fun co => co.value ++ [' ']).flatten := by
  induction cos with
  | nil => exact ⟨[], rfl, rfl⟩
  | cons co cos ih =>
    obtain ⟨r', hr', hs'⟩ := ih fun o ho => hval o (List.mem_cons_of_mem co ho)
    have hw : '\x1B' ∉ co.value := hval co (List.mem_cons_self co cos)
    obtain ⟨s, hs, p, hpshape, hp⟩ :
        ∃ s, co.ansify discordTable = some s ∧
          ∃ p, s = p ++ co.value ∧
            (p = [] ∨ ∃ c : DiscordColour, c ∈ discordTable ∧ p = c.ansify) := by
      cases hcol : co.colour with
      | none =>
        exact ⟨co.value, by simp [ColouredObject.ansify, hcol], [], by simp, Or.inl rfl⟩
      | some k =>
        obtain ⟨c, hc, hmem⟩ := reify_discordTable k
        exact ⟨c.ansify ++ co.value, by simp [ColouredObject.ansify, hcol, hc], c.ansify,
          rfl, Or.inr ⟨c, hmem, rfl⟩⟩
    refine ⟨s ++ RESET ++ [' '] ++ r', ?_, ?_⟩
    · rw [renderAll, hs, hr']
    · have hshape : s ++ RESET ++ [' '] ++ r' = p ++ co.value ++ RESET ++ ' ' :: r' := by
        rw [hpshape]
        simp [List.append_assoc]
      rw [hshape, strip_piece r' hw hp, hs']
      simp

theorem splitOnSpace_ne_nil (s : List Char) : splitOnSpace s ≠ [] := by
  cases s with
  | nil => simp [splitOnSpace]
  | cons c rest =>
    by_cases hc : c = ' '
    · simp [splitOnSpace, hc]
    · cases h : splitOnSpace rest with
      | nil => simp [splitOnSpace, hc, h]
      | cons w ws => simp [splitOnSpace, hc, h]

theorem splitOnSpace_no_space (s : List Char) :
    ∀ w ∈ splitOnSpace s, ' ' ∉ w := by
  induction s with
  | nil =>
    intro w hw
    have : w = [] := by simpa [splitOnSpace] using hw
    simp [this]
  | cons c rest ih =>
    intro w hw
    by_cases hc : c = ' '
    · rw [splitOnSpace, if_pos hc] at hw
      rcases List.mem_cons.mp hw with rfl | hw
      · simp
      · exact ih w hw
    · rw [splitOnSpace, if_neg hc] at hw
      cases h : splitOnSpace rest with
      | nil => exact absurd h (splitOnSpace_ne_nil rest)
      | cons w0 ws =>
        rw [h] at hw
        rcases List.mem_cons.mp hw with rfl | hw
        · intro hmem
          rcases List.mem_cons.mp hmem with he | hmem
          · exact hc he.symm
          · exact ih w0 (h ▸ List.mem_cons_self w0 ws) hmem
        · exact ih w (h ▸ List.mem_cons_of_mem w0 hw)

theorem splitOnSpace_chars (s : List Char) :
    ∀ w ∈ splitOnSpace s, ∀ c ∈ w, c ∈ s := by
  induction s with
  | nil =>
    intro w hw c hc
    have : w = [] := by simpa [splitOnSpace] using hw
    rw [this] at hc
    cases hc
  | cons a rest ih =>
    intro w hw c hc
    by_cases ha : a = ' '
    · rw [splitOnSpace, if_pos ha] at hw
      rcases List.mem_cons.mp hw with rfl | hw
      · cases hc
      · exact List.mem_cons_of_mem a (ih w hw c hc)
    · rw [splitOnSpace, if_neg ha] at hw
      cases h : splitOnSpace rest with
      | nil => exact absurd h (splitOnSpace_ne_nil rest)
      | cons w0 ws =>
        rw [h] at hw
        rcases List.mem_cons.mp hw with rfl | hw
        · rcases List.mem_cons.mp hc with rfl | hc
          · exact List.mem_cons_self c rest
          · exact List.mem_cons_of_mem a (ih w0 (h ▸ List.mem_cons_self w0 ws) c hc)
        · exact List.mem_cons_of_mem a (ih w (h ▸ List.mem_cons_of_mem w0 hw) c hc)

theorem splitOnSpace_append {w : List Char} (hw : ' ' ∉ w) (t : List Char) :
    splitOnSpace (w ++ ' ' :: t) = w :: splitOnSpace t := by
  induction w with
  | nil => simp [splitOnSpace]
  | cons c w ih =>
    have hc : c ≠ ' ' := fun he => hw (he ▸ List.mem_cons_self c w)
    have hm : ' ' ∉ w := fun hm => hw (List.mem_cons_of_mem c hm)
    rw [List.cons_append, splitOnSpace, if_neg hc, ih hm]

theorem splitOnSpace_join (ws : List (List Char)) (h : ∀ w ∈ ws, ' ' ∉ w) :
    splitOnSpace ((ws.map fun w => w ++ [' ']).flatten) = ws ++ [[]] := by
  induction ws with
  | nil => simp [splitOnSpace]
  | cons w ws ih =>
    have hw : ' ' ∉ w := h w (List.mem_cons_self w ws)
    have hshape : ((w :: ws).map fun v => v ++ [' ']).flatten =
        w ++ ' ' :: ((ws.map fun v => v ++ [' ']).flatten) := by
      simp [List.append_assoc]
    rw [hshape, splitOnSpace_append hw, ih fun v hv => h v (List.mem_cons_of_mem w hv)]
    rfl

set_option maxRecDepth 10000

/-- Concrete two-word input `"egg add"`, used by several witnesses. -/
def wEgg : List (IsomorphicHolder Char (List Char)) :=
  [⟨['e', 'g', 'g'], ['e', 'g', 'g']⟩, ⟨['a', 'd', 'd'], ['a', 'd', 'd']⟩]

/-- The colouring of `wEgg`: both words share the good signature `[0, 1, 1]` and
receive colour key 0. -/
def oEgg : List (ColouredObject (List Char)) :=
  [⟨['e', 'g', 'g'], some ⟨0⟩⟩, ⟨['a', 'd', 'd'], some ⟨0⟩⟩]

/-- C1: for every finite input word sequence, a word's output carries a colour
key if and only if its pattern signature occurs at least twice among the input
words' signatures and that signature is good. -/
theorem C1_coloured_iff_shared_good {R : Type} (words : List (IsomorphicHolder T R))
    (out : List (ColouredObject R)) (h : colour words = some out) :
    out.map (fun o => o.colour.isSome) =
      (sigList words).map fun e => qualifies (sigList words) e := by
  obtain ⟨out', ho, hlen, hval, hcol⟩ := colour_spec words
  rw [h] at ho
  cases Option.some.inj ho
  have hlen2 : (sigList words).length = words.length := by simp [sigList]
  refine List.ext_get (by simp [hlen, hlen2]) ?_
  intro n h1 h2
  have hn : n < out.length := by simpa using h1
  have hw : n < (sigList words).length := by simpa using h2
  simp only [List.get_eq_getElem, List.getElem_map]
  have hc := hcol n hn hw
  simp only [List.get_eq_getElem] at hc
  rw [hc]
  by_cases hq : qualifies (sigList words) ((sigList words)[n]) = true
  · simp [hq]
  · rw [if_neg hq]
    simp only [Bool.not_eq_true] at hq
    simp [hq]

/-- C1 witness: in `"egg add"` both words are coloured, matching the qualifying
signature computation. -/
theorem C1_witness : oEgg.map (fun o => o.colour.isSome) = [true, true] :=
  (C1_coloured_iff_shared_good wEgg oEgg (by decide)).trans (by decide)

/-- C2 counterexample: the `u8` pattern counter wraps at 256, so the word with
257 distinct characters gets the same signature as a word whose 257th character
repeats its first — the two are not isomorphic. -/
theorem C2_counterexample :
    (IsomorphSignature.from_isomorphic (List.range 257)).signature =
        (IsomorphSignature.from_isomorphic (List.range 256 ++ [0])).signature ∧
      ¬ Isomorphic (List.range 257) (List.range 256 ++ [0]) := by
  constructor
  · decide
  · rintro ⟨hlen, f, g, hf, hg⟩
    have hg0 := hg 0 (by decide) (by decide)
    have hg256 := hg 256 (by decide) (by decide)
    have hB : (List.range 256 ++ [0]).get ⟨0, by decide⟩ =
        (List.range 256 ++ [0]).get ⟨256, by decide⟩ := by decide
    have hAA : (List.range 257).get ⟨0, by decide⟩ = (List.range 257).get ⟨256, by decide⟩ :=
      hg0.symm.trans (by rw [hB]; exact hg256)
    exact absurd hAA (by decide)

/-- C2 (amended): for words with at most 256 distinct characters, signature
equality (as a sequence) is exactly isomorphism, and the signature is the
left-to-right first-occurrence scan. -/
theorem C2_sig_iff_isomorphic (A B : List T)
    (hA : (accSeen [] A).length ≤ 256) (hB : (accSeen [] B).length ≤ 256) :
    ((IsomorphSignature.from_isomorphic A).signature =
        (IsomorphSignature.from_isomorphic B).signature ↔ Isomorphic A B) ∧
      (IsomorphSignature.from_isomorphic A).signature = scanSig [] A :=
  ⟨from_isomorphic_sig_iff A B hA hB, signature_eq_scanSig_of_le hA⟩

/-- C2 witness: `[0, 1, 1]` and `[5, 7, 7]` instantiate the amended claim. -/
theorem C2_witness :
    ((IsomorphSignature.from_isomorphic [0, 1, 1]).signature =
        (IsomorphSignature.from_isomorphic [5, 7, 7]).signature ↔
          Isomorphic [0, 1, 1] [5, 7, 7]) ∧
      (IsomorphSignature.from_isomorphic [0, 1, 1]).signature = scanSig [] [0, 1, 1] :=
  C2_sig_iff_isomorphic [0, 1, 1] [5, 7, 7] (by decide) (by decide)

/-- C3: colour keys are assigned to qualifying signatures on first encounter, in
first-seen order over the original word list, as consecutive values from 0 (each
coloured word's key is the index of its signature in the first-occurrence order
of qualifying signatures), and all words with the same signature receive the
same colour. -/
theorem C3_key_assignment {R : Type} (words : List (IsomorphicHolder T R))
    (out : List (ColouredObject R)) (h : colour words = some out) :
    (∀ i (hi : i < out.length) (hw : i < (sigList words).length),
      (out.get ⟨i, hi⟩).colour =
        if qualifies (sigList words) ((sigList words).get ⟨i, hw⟩) = true then
          some ⟨idxOf ((sigList words).get ⟨i, hw⟩)
            (accSeen [] ((sigList words).filter (qualifies (sigList words))))⟩
        else none) ∧
    ∀ i j (hi : i < out.length) (hj : j < out.length)
      (hwi : i < (sigList words).length) (hwj : j < (sigList words).length),
      (sigList words).get ⟨i, hwi⟩ = (sigList words).get ⟨j, hwj⟩ →
      (out.get ⟨i, hi⟩).colour = (out.get ⟨j, hj⟩).colour := by
  obtain ⟨out', ho, hlen, hval, hcol⟩ := colour_spec words
  rw [h] at ho
  cases Option.some.inj ho
  refine ⟨hcol, ?_⟩
  intro i j hi hj hwi hwj he
  rw [hcol i hi hwi, hcol j hj hwj, he]

/-- C3 witness: in `"egg add"` the second word receives the same key 0 assigned
at the first word's signature's first encounter. -/
theorem C3_witness : (oEgg.get ⟨1, by decide⟩).colour = some ⟨0⟩ := by
  have h := (C3_key_assignment wEgg oEgg (by decide)).1 1 (by decide) (by decide)
  rw [h]
  decide

/-- C4 counterexample: the word of 257 distinct characters has no repeated
character, yet its `good` flag is true (the wrapped signature repeats the value
0), refuting the claimed equivalence for arbitrary words. -/
theorem C4_counterexample :
    (IsomorphSignature.from_isomorphic (List.range 257)).good = true ∧
      (List.range 257).Nodup :=
  ⟨by decide, List.nodup_range 257⟩

/-- C4 (amended): the goodness flag is true iff the number of distinct values of
the signature differs from its length; for words with at most 256 distinct
characters this is equivalent to the word containing a repeated character; the
empty word yields the empty signature with `good = false`. -/
theorem C4_good_flag (w : List T) (h : (accSeen [] w).length ≤ 256) :
    ((IsomorphSignature.from_isomorphic w).good = true ↔
        (IsomorphSignature.from_isomorphic w).signature.dedup.length ≠
          (IsomorphSignature.from_isomorphic w).signature.length) ∧
      ((IsomorphSignature.from_isomorphic w).good = true ↔ ¬ w.Nodup) ∧
      IsomorphSignature.from_isomorphic ([] : List T) = ⟨false, []⟩ := by
  refine ⟨?_, ?_, rfl⟩
  · rw [good_iff_not_nodup]
    exact not_congr (dedup_length_eq_iff _).symm
  · rw [good_iff_not_nodup]
    exact not_congr (sig_nodup_iff h)

/-- C4 witness: instantiation at the word `[0, 1, 1]`. -/
theorem C4_witness :
    ((IsomorphSignature.from_isomorphic [0, 1, 1]).good = true ↔
        (IsomorphSignature.from_isomorphic [0, 1, 1]).signature.dedup.length ≠
          (IsomorphSignature.from_isomorphic [0, 1, 1]).signature.length) ∧
      ((IsomorphSignature.from_isomorphic [0, 1, 1]).good = true ↔
        ¬ ([0, 1, 1] : List Nat).Nodup) ∧
      IsomorphSignature.from_isomorphic ([] : List Nat) = ⟨false, []⟩ :=
  C4_good_flag [0, 1, 1] (by decide)

/-- C5 counterexample: an uncoloured word does not emit only its literal text —
the `main` pipeline appends the reset marker to every word. -/
theorem C5_counterexample :
    ((ColouredObject.mk ['h', 'i'] none).ansify discordTable).map (· ++ RESET) ≠
      some ['h', 'i'] := by decide

/-- C5 (amended): a coloured word renders as the colour's escape prefix, then
the literal text, then the fixed reset marker; an uncoloured word renders as its
literal text followed by the same reset marker (no escape prefix). -/
theorem C5_rendering (v : List Char) (table : List DiscordColour) (k : ColourKey)
    (c : DiscordColour) (h : ColourKey.reify k table = some c) :
    ((ColouredObject.mk v (some k)).ansify table).map (· ++ RESET) =
        some (c.ansify ++ v ++ RESET) ∧
      ((ColouredObject.mk v none).ansify table).map (· ++ RESET) = some (v ++ RESET) := by
  constructor
  · simp [ColouredObject.ansify, h]
  · simp [ColouredObject.ansify]

/-- C5 witness: instantiation on the `main` table at key 0 (colour value 31). -/
theorem C5_witness :
    ((ColouredObject.mk ['h', 'i'] (some ⟨0⟩)).ansify discordTable).map (· ++ RESET) =
        some ((⟨31⟩ : DiscordColour).ansify ++ ['h', 'i'] ++ RESET) ∧
      ((ColouredObject.mk ['h', 'i'] none).ansify discordTable).map (· ++ RESET) =
        some (['h', 'i'] ++ RESET) :=
  C5_rendering ['h', 'i'] discordTable ⟨0⟩ ⟨31⟩ (by decide)

/-- C6: the claimed totality fails on the code — a single word with 256 distinct
characters overflows the `u8` counter (`idx += 1` past 255): a panic under
overflow checks (the default debug profile), a silent wraparound producing
colliding signatures in release (cf. the C2/C4 counterexamples). -/
theorem C6_overflow :
    IsomorphSignature.from_isomorphicChecked (List.range 256) = none := by decide

/-- C7 counterexample: an input word containing the reset escape sequence is
garbled by marker stripping, so the round trip fails on that input. -/
theorem C7_counterexample :
    (mainOutput ['a', '\x1B', '[', '0', 'm', 'b']).map
        (fun out => (splitOnSpace (stripAnsi out)).dropLast) ≠
      some (splitOnSpace ['a', '\x1B', '[', '0', 'm', 'b']) := by decide

/-- C7 (amended): for every input buffer containing no escape character,
stripping all colour and reset escape markers from the output line and
re-splitting on spaces, dropping the trailing-separator field, reproduces the
input words in their original order. -/
theorem C7_roundtrip (buf : List Char) (h : '\x1B' ∉ buf) :
    ∃ out, mainOutput buf = some out ∧
      (splitOnSpace (stripAnsi out)).dropLast = splitOnSpace buf := by
  obtain ⟨cos, hco, hlen, hval, hcol⟩ :=
    colour_spec ((splitOnSpace buf).map fun w => (⟨w, w⟩ : IsomorphicHolder Char (List Char)))
  have hvals : cos.map (fun o => o.value) = splitOnSpace buf := by
    rw [hval, List.map_map]
    exact (List.map_congr_left fun a _ => rfl).trans (List.map_id _)
  have hesc : ∀ co ∈ cos, '\x1B' ∉ co.value := by
    intro co hc hmem
    have hv : co.value ∈ splitOnSpace buf := by
      rw [← hvals]
      exact List.mem_map.mpr ⟨co, hc, rfl⟩
    exact h (splitOnSpace_chars buf _ hv _ hmem)
  obtain ⟨r, hr, hs⟩ := renderAll_strip cos hesc
  refine ⟨r, ?_, ?_⟩
  · show mainOutput buf = some r
    rw [mainOutput, hco]
    exact hr
  · rw [stripAnsi, hs]
    have hmaps : cos.map (fun co => co.value ++ [' ']) =
        (splitOnSpace buf).map fun w => w ++ [' '] := by
      rw [← hvals, List.map_map]
      rfl
    rw [hmaps, splitOnSpace_join _ (splitOnSpace_no_space buf)]
    simp

/-- C7 witness: round trip on the buffer `"egg add"`. -/
theorem C7_witness :
    ∃ out, mainOutput ['e', 'g', 'g', ' ', 'a', 'd', 'd'] = some out ∧
      (splitOnSpace (stripAnsi out)).dropLast =
        splitOnSpace ['e', 'g', 'g', ' ', 'a', 'd', 'd'] :=
  C7_roundtrip ['e', 'g', 'g', ' ', 'a', 'd', 'd'] (by decide)

/-- C8: classification is deterministic — running `colour` on equal inputs, each
run with fresh internal state (`counters`, `colour_map` and the key allocator
are created inside `colour`), yields identical colour assignments. -/
theorem C8_deterministic {R : Type} (ws1 ws2 : List (IsomorphicHolder T R))
    (h : ws1 = ws2) : colour ws1 = colour ws2 := by rw [h]

/-- C8 witness: two runs on `"egg add"`. -/
theorem C8_witness : colour wEgg = colour wEgg :=
  C8_deterministic wEgg wEgg rfl

/-- C9 counterexample: on the empty table reification returns no element at all
(the source panics on the remainder-by-zero `idx % 0`), so the claim fails for
the empty finite colour table. -/
theorem C9_counterexample :
    ColourKey.reify ⟨5⟩ ([] : List DiscordColour) = none := rfl

/-- C9 (amended): for every colour key and every NONEMPTY finite colour table,
reification returns the table element at index `k mod (length of the table)`. -/
theorem C9_reify {C : Type} (k : ColourKey) (table : List C) (h : 0 < table.length) :
    ColourKey.reify k table = some (table.get ⟨k.idx % table.length, Nat.mod_lt _ h⟩) := by
  unfold ColourKey.reify
  rw [List.getElem?_eq_getElem (Nat.mod_lt _ h)]
  simp

/-- C9 witness: key 1003 on the 1000-entry `main` table reifies to an element. -/
theorem C9_witness : (ColourKey.reify ⟨1003⟩ discordTable).isSome = true := by
  rw [C9_reify ⟨1003⟩ discordTable (by rw [discordTable_length]; omega)]
  rfl

/-- C10: in the emission pass the `counters` lookup always succeeds (the
aggregation pass has inserted every occurring signature), so the
`unreachable!()` arm — modelled by `none` — is never taken and `colour` always
returns a result. -/
theorem C10_no_unreachable {R : Type} (words : List (IsomorphicHolder T R)) :
    (colour words).isSome = true := by
  obtain ⟨out, ho, _⟩ := colour_spec words
  rw [ho]
  rfl

end Isomorphs
